import Mathlib

/-!
Shallow embedding of `src/JSON_to_chunks.py` (class `JSONChunkProcessor`).

Python strings are modelled as `List Char` (`Str`), Python `int` values that
stay non-negative on every reachable path as `Nat` (each truncated
subtraction below is noted where it coincides with the Python value),
and the mutable processor state (`global_chunk_counter`, `hierarchy_cache`)
is threaded explicitly.
-/

abbrev Str := List Char

/-- Python `str.strip()`: remove whitespace from both ends. -/
def stripChars (l : Str) : Str :=
  ((l.dropWhile Char.isWhitespace).reverse.dropWhile Char.isWhitespace).reverse

/-- Python `for i in range(hi, lo, -1): if pred i: ...` — scan `i = hi, hi-1, ...`
stopping above the exclusive lower bound `lo`, returning the first hit. -/
def searchDown (pred : Nat → Bool) (lo : Nat) : Nat → Option Nat
  | 0 => none
  | i+1 => if i+1 ≤ lo then none
           else if pred (i+1) then some (i+1)
           else searchDown pred lo i

/-- Python `content[i] in '.!?'`. -/
def sentencePunct (c : Char) : Bool := c == '.' || c == '!' || c == '?'

/-- Value `break_point = i + off` on a hit, `end` when the search came up empty. -/
def afterBreak (e off : Nat) : Option Nat → Nat
  | some i => i + off
  | none => e

/-- The cascade of lines 146, 153 and 160: a later search runs only while
`break_point == end`. -/
def tryNext (cur e newv : Nat) : Nat := if cur = e then newv else cur

/-- Line 139-141: `content[i] in '.!?'` followed by end-of-string or
whitespace. -/
def sentPred (content : Str) (i : Nat) : Bool :=
  sentencePunct (content.getD i 'a') &&
    (decide (content.length ≤ i+1) || (content.getD (i+1) 'a').isWhitespace)

/-- Line 148: `content[i:i+2] == '\n\n'`. -/
def paraPred (content : Str) (i : Nat) : Bool :=
  content.getD i 'a' == '\n' && content.getD (i+1) 'a' == '\n'

/-- Line 155: `content[i] == '\n'`. -/
def linePred (content : Str) (i : Nat) : Bool := content.getD i 'a' == '\n'

/-- Line 162: `content[i].isspace()`. -/
def wordPred (content : Str) (i : Nat) : Bool := (content.getD i 'a').isWhitespace

/-- The break-point search of `split_content_with_overlap` (lines 133-167):
try a sentence end, then `'\n\n'`, then `'\n'`, then a whitespace character,
each cascading only while `break_point == end`. Out-of-range lookups use the
default `'a'`; every index actually probed is in range. -/
def findBreakPoint (content : Str) (start e : Nat) : Nat :=
  let s1 := afterBreak e 1 (searchDown (sentPred content) (max start (e - 200)) (e - 1))
  let s2 := tryNext s1 e
    (afterBreak e 2 (searchDown (paraPred content) (max start (e - 200)) (e - 1)))
  let s3 := tryNext s2 e
    (afterBreak e 1 (searchDown (linePred content) (max start (e - 100)) (e - 1)))
  tryNext s3 e
    (afterBreak e 1 (searchDown (wordPred content) (max start (e - 50)) (e - 1)))

/-- The value of the Python variable `end` after lines 128-167: the tentative
cut `start + available_chars`, moved to the break point when it falls short of
the end of the content. -/
def endPos (content : Str) (avail start : Nat) : Nat :=
  let e0 := start + avail
  if e0 < content.length then findBreakPoint content start e0 else e0

/-- The `while start < len(content)` loop of `split_content_with_overlap`
(lines 127-180). `max (start+1) (e - overlap)` matches
`max(start + 1, end - self.overlap_size)` (a negative Python value of
`end - overlap` loses against `start + 1` exactly as `Nat` truncation does). -/
def splitLoop (content : Str) (avail overlap : Nat) (start : Nat) : List Str :=
  if h : start < content.length then
    let e := endPos content avail start
    let chunk := stripChars ((content.drop start).take (e - start))
    let rest :=
      if e < content.length then
        splitLoop content avail overlap (max (start+1) (e - overlap))
      else []
    if chunk = [] then rest else chunk :: rest
  else []
termination_by content.length - start
decreasing_by
  exact Nat.sub_lt_sub_left h
    (Nat.lt_of_lt_of_le (Nat.lt_succ_self _) (Nat.le_max_left _ _))

/-- Method `JSONChunkProcessor.split_content_with_overlap` (lines 110-182). -/
def split_content_with_overlap (overlap : Nat) (content : Str) (availableChars : Nat) :
    List Str :=
  if content.length ≤ availableChars then [content]
  else splitLoop content availableChars overlap 0

/-- Fuel-indexed version of `splitLoop`: `none` means the iteration budget ran
out before the loop finished.  Used to state the termination bound of C7. -/
def splitLoopFuel (content : Str) (avail overlap : Nat) : Nat → Nat → Option (List Str)
  | 0, start => if start < content.length then none else some []
  | fuel+1, start =>
    if start < content.length then
      let e := endPos content avail start
      let chunk := stripChars ((content.drop start).take (e - start))
      match (if e < content.length then
              splitLoopFuel content avail overlap fuel (max (start+1) (e - overlap))
             else some []) with
      | none => none
      | some rest => some (if chunk = [] then rest else chunk :: rest)
    else some []

/-! ## Background builder -/

/-- One JSON entry: `content`, `metadata.title` (absent ↦ `none`),
`metadata.hierarchy` (absent ↦ `[]`), `metadata.full_path` (absent ↦ `none`). -/
structure Entry where
  content : Str
  title : Option Str
  hierarchy : List Str
  full_path : Option Str
deriving DecidableEq

/-- State `self.hierarchy_cache`: title ↦ stripped ancestor content. -/
abbrev Cache := List (Str × Str)

def lookupCache (cache : Cache) (k : Str) : Option Str :=
  (cache.find? (fun p => p.1 == k)).map (fun p => p.2)

/-- The inner `for other_entry in all_entries: if ... title == hierarchy_title`
loop (lines 83-88): first entry whose title matches, stripped content. -/
def findEntryContent (allEntries : List Entry) (t : Str) : Option Str :=
  (allEntries.find? (fun e2 => e2.title == some t)).map
    (fun e2 => stripChars e2.content)

/-- The `for hierarchy_title in hierarchy` loop (lines 76-88), returning the
collected `background_parts` and the updated cache. -/
def collectBackground (allEntries : List Entry) :
    List Str → Cache → List Str × Cache
  | [], cache => ([], cache)
  | t :: rest, cache =>
    match lookupCache cache t with
    | some c =>
      let r := collectBackground allEntries rest cache
      (c :: r.1, r.2)
    | none =>
      match findEntryContent allEntries t with
      | some c =>
        let r := collectBackground allEntries rest ((t, c) :: cache)
        (c :: r.1, r.2)
      | none => collectBackground allEntries rest cache

def nl2 : Str := ['\n', '\n']

def truncMarker : Str := "[TRUNCATED] ".toList

def bgOpen : Str := "[BACKGROUND]\n".toList

def bgClose : Str := "\n[/BACKGROUND]".toList

/-- Method `JSONChunkProcessor.build_hierarchical_background` (lines 59-108).
`raw.length - maxBg + truncMarker.length` is the Python
`len(raw_background) - self.max_background_size + len('[TRUNCATED] ')`
(non-negative because it is only formed when `maxBg < raw.length`). -/
def build_hierarchical_background (maxBg : Nat) (entry : Entry)
    (allEntries : List Entry) (cache : Cache) : (Str × Bool) × Cache :=
  let pc := collectBackground allEntries entry.hierarchy cache
  let raw := List.intercalate nl2 pc.1
  if raw = [] then (([], false), pc.2)
  else
    let p := if maxBg < raw.length then
        (truncMarker ++ raw.drop (raw.length - maxBg + truncMarker.length), true)
      else (raw, false)
    ((bgOpen ++ p.1 ++ bgClose, p.2), pc.2)

/-! ## Budget allocator -/

/-- Python `needle in hay` for strings. -/
def isInfixList (needle hay : Str) : Bool :=
  (List.range (hay.length + 1)).any (fun k => needle.isPrefixOf (hay.drop k))

/-- The budget-allocation block of `create_chunks_from_entry` (lines 200-236):
given `chunk_size` and the built background, return the (possibly re-truncated)
background, the `background_length` variable, and the final `available_chars`.
`Nat` truncated subtraction agrees with the Python `int` on every branch
condition here (`a - b < c ↔ a < b + c`, and a Python-negative value always
takes the same branch as the truncated `0`).  The Python slices are
`bg[13:-14]` = `(bg.drop 13).take (bg.length - 27)`, `inner[12:]` =
`inner.drop 12`, and `x[-k:]` (for `k > 0`) = `x.drop (x.length - k)`. -/
def computeBudget (chunkSize : Nat) (bg0 : Str) : Str × Nat × Nat :=
  let bgLen0 := bg0.length
  let avail0 := chunkSize - bgLen0
  if avail0 < 100 then
    let r :=
      if 0 < bgLen0 then
        let maxAllowed := chunkSize - 100
        if 0 < maxAllowed then
          let bg2 :=
            if bgOpen.isPrefixOf bg0 && bgClose.isSuffixOf bg0 then
              let inner := (bg0.drop 13).take (bg0.length - 27)
              if isInfixList truncMarker inner then
                let ti := inner.drop 12
                let newSize := maxAllowed - 30
                if 0 < newSize then
                  bgOpen ++ truncMarker ++ ti.drop (ti.length - newSize) ++ bgClose
                else bg0
              else
                let newSize := maxAllowed - 28
                if 0 < newSize then
                  bgOpen ++ truncMarker ++ inner.drop (inner.length - newSize) ++ bgClose
                else []
            else bg0
          (bg2, bg2.length)
        else (([] : Str), 0)
      else (bg0, bgLen0)
    (r.1, r.2, max (chunkSize - r.2) 100)
  else (bg0, bgLen0, avail0)

/-! ## Chunk identifiers -/

/-- Little-endian base-10 digits of `n`; the fuel argument (any value `≥ n`)
keeps the recursion structural so the kernel can evaluate it. -/
def decDigitsAux : Nat → Nat → List Nat
  | 0, _ => []
  | fuel+1, n => if n = 0 then [] else n % 10 :: decDigitsAux fuel (n / 10)

/-- Decimal rendering of a `Nat`, as Python `str(n)` / `"%d" % n`. -/
def natToDecimal (n : Nat) : Str :=
  if n = 0 then ['0']
  else ((decDigitsAux n n).map Nat.digitChar).reverse

/-- Python `f"{n:06d}"` for `n ≥ 0`: left-pad the decimal with `'0'` to
width 6 (wider numbers are kept whole). -/
def pad6 (n : Nat) : Str :=
  List.replicate (6 - (natToDecimal n).length) '0' ++ natToDecimal n

/-- The title sanitisation of `generate_chunk_id` (lines 53-55): keep
alphanumerics and `' '`, `'-'`, `'_'`; strip; replace `' '` by `'_'`;
keep at most 30 characters. -/
def cleanTitle (t : Str) : Str :=
  (((stripChars (t.filter (fun c => c.isAlphanum || c == ' ' || c == '-' || c == '_'))).map
    (fun c => if c == ' ' then '_' else c)).take 30)

/-- Python `pathlib.Path(name).stem` for a bare file name: cut at the last `'.'`
when that dot is neither the first nor the last character. -/
def pathStem (name : Str) : Str :=
  let t := (name.reverse.takeWhile (fun c => c ≠ '.')).length
  if t = name.length then name
  else
    let i := name.length - 1 - t
    if 0 < i ∧ i < name.length - 1 then name.take i else name

def chunkPrefix : Str := "chunk_".toList

/-- The string built by `generate_chunk_id` (line 57) for counter value
`c` (the value after the `+= 1`):
`f"chunk_{c:06d}_{clean_filename}_{clean_title}_{chunk_index}"`. -/
def chunkIdString (c : Nat) (sourceFilename title : Str) (chunkIndex : Nat) : Str :=
  chunkPrefix ++ pad6 c ++ '_' :: pathStem sourceFilename ++ '_' :: cleanTitle title
    ++ '_' :: natToDecimal chunkIndex

/-! ## Chunk assembly and the document/run drivers -/

/-- One emitted chunk: its `content` plus the metadata dict of lines 259-266
(flattened). -/
structure Chunk where
  content : Str
  chunk_id : Str
  source_file : Str
  full_path : Str
  chunk_size : Nat
  background_size : Nat
  content_size : Nat
deriving DecidableEq

def unknownTitle : Str := "Unknown".toList

/-- The `for i, content_chunk in enumerate(content_chunks)` loop of
`create_chunks_from_entry` (lines 248-273), threading the global counter:
`generate_chunk_id` increments the counter and then uses its new value. -/
def assembleChunks (sourceFilename title fullPath bg : Str) (bgLen : Nat) :
    List Str → Nat → Nat → List Chunk × Nat
  | [], _, counter => ([], counter)
  | seg :: rest, i, counter =>
    let fullContent := if bg = [] then seg else bg ++ nl2 ++ seg
    let counter1 := counter + 1
    let c : Chunk :=
      { content := fullContent
        chunk_id := chunkIdString counter1 sourceFilename title i
        source_file := sourceFilename
        full_path := fullPath
        chunk_size := fullContent.length
        background_size := bgLen
        content_size := seg.length }
    let r := assembleChunks sourceFilename title fullPath bg bgLen rest (i+1) counter1
    (c :: r.1, r.2)

/-- Method `JSONChunkProcessor.create_chunks_from_entry` (lines 184-275), with the
processor state (counter, cache) threaded explicitly. -/
def create_chunks_from_entry (chunkSize overlap maxBg : Nat) (entry : Entry)
    (allEntries : List Entry) (sourceFilename : Str) (counter : Nat)
    (cache : Cache) : List Chunk × Nat × Cache :=
  let b := build_hierarchical_background maxBg entry allEntries cache
  let q := computeBudget chunkSize b.1.1
  let segs := split_content_with_overlap overlap entry.content q.2.2
  let title := entry.title.getD unknownTitle
  let fullPath := entry.full_path.getD title
  let r := assembleChunks sourceFilename title fullPath q.1 q.2.1 segs 0 counter
  (r.1, r.2, b.2)

/-- The `for i, entry in enumerate(entries)` loop of `process_json_file`
(lines 305-314): every entry of the document, with the document's own entry
list as `all_entries`. -/
def processEntries (chunkSize overlap maxBg : Nat) (allEntries : List Entry)
    (sourceFilename : Str) : List Entry → Nat → Cache → List Chunk × Nat
  | [], counter, _ => ([], counter)
  | e :: rest, counter, cache =>
    let r := create_chunks_from_entry chunkSize overlap maxBg e allEntries
      sourceFilename counter cache
    let m := processEntries chunkSize overlap maxBg allEntries sourceFilename
      rest r.2.1 r.2.2
    (r.1 ++ m.1, m.2)

/-- Method `process_json_file` minus the I/O (lines 277-314): the hierarchy cache is
reset to empty, the global counter is kept. -/
def processDocument (chunkSize overlap maxBg : Nat) (sourceFilename : Str)
    (entries : List Entry) (counter : Nat) : List Chunk × Nat :=
  processEntries chunkSize overlap maxBg entries sourceFilename entries counter []

/-- A whole run of one `JSONChunkProcessor` instance over a sequence of
documents (as `process_all_json_files` does, minus the I/O): each document is
a source file name plus its entries; the counter survives across documents. -/
def processRun (chunkSize overlap maxBg : Nat) :
    List (Str × List Entry) → Nat → List Chunk × Nat
  | [], counter => ([], counter)
  | (fname, entries) :: docs, counter =>
    let r := processDocument chunkSize overlap maxBg fname entries counter
    let m := processRun chunkSize overlap maxBg docs r.2
    (r.1 ++ m.1, m.2)

/-! ## Fuel-based evaluation mirrors

`splitLoop` is defined by well-founded recursion, which the kernel does not
unfold; these structurally recursive mirrors compute the same values (proved
below) and let concrete instances be checked by `decide`/`rfl`. -/

def splitEval (overlap : Nat) (content : Str) (availableChars : Nat) : List Str :=
  if content.length ≤ availableChars then [content]
  else (splitLoopFuel content availableChars overlap content.length 0).getD []

def create_chunks_eval (chunkSize overlap maxBg : Nat) (entry : Entry)
    (allEntries : List Entry) (sourceFilename : Str) (counter : Nat)
    (cache : Cache) : List Chunk × Nat × Cache :=
  let b := build_hierarchical_background maxBg entry allEntries cache
  let q := computeBudget chunkSize b.1.1
  let segs := splitEval overlap entry.content q.2.2
  let title := entry.title.getD unknownTitle
  let fullPath := entry.full_path.getD title
  let r := assembleChunks sourceFilename title fullPath q.1 q.2.1 segs 0 counter
  (r.1, r.2, b.2)

def processEntriesEval (chunkSize overlap maxBg : Nat) (allEntries : List Entry)
    (sourceFilename : Str) : List Entry → Nat → Cache → List Chunk × Nat
  | [], counter, _ => ([], counter)
  | e :: rest, counter, cache =>
    let r := create_chunks_eval chunkSize overlap maxBg e allEntries
      sourceFilename counter cache
    let m := processEntriesEval chunkSize overlap maxBg allEntries sourceFilename
      rest r.2.1 r.2.2
    (r.1 ++ m.1, m.2)

def processDocumentEval (chunkSize overlap maxBg : Nat) (sourceFilename : Str)
    (entries : List Entry) (counter : Nat) : List Chunk × Nat :=
  processEntriesEval chunkSize overlap maxBg entries sourceFilename entries counter []

def processRunEval (chunkSize overlap maxBg : Nat) :
    List (Str × List Entry) → Nat → List Chunk × Nat
  | [], counter => ([], counter)
  | (fname, entries) :: docs, counter =>
    let r := processDocumentEval chunkSize overlap maxBg fname entries counter
    let m := processRunEval chunkSize overlap maxBg docs r.2
    (r.1 ++ m.1, m.2)

/-! ## Claim-side definitions (used only to state and audit properties) -/

/-- The reconstruction recipe of the spec's Coverage claim: drop the trailing
`overlapSize` characters from each non-final segment, then concatenate. -/
def reconstruct (ov : Nat) : List Str → Str
  | [] => []
  | [s] => s
  | s :: r :: t => s.take (s.length - ov) ++ reconstruct ov (r :: t)

/-- Parse a string of decimal digit characters (most significant first),
ignoring leading zeros. -/
def parseDec (l : Str) : Nat :=
  Nat.ofDigits 10 ((l.map (fun c => c.toNat - 48)).reverse)

/-- The chunks `cs` carry the ids a run segment starting at counter value `k`
would assign: the `j`-th chunk's id was built by `generate_chunk_id` from
counter value `k + j + 1` (and some filename, title and segment index). -/
def idsFrom (k : Nat) (cs : List Chunk) : Prop :=
  ∀ j (hj : j < cs.length), ∃ f t i,
    (cs.get ⟨j, hj⟩).chunk_id = chunkIdString (k + j + 1) f t i

/-! ## Lemmas: `stripChars` -/

theorem stripChars_eq_rdropWhile (l : Str) :
    stripChars l = (l.dropWhile Char.isWhitespace).rdropWhile Char.isWhitespace := rfl

theorem stripChars_eq_self (l : Str) (h : ∀ c ∈ l, c.isWhitespace = false) :
    stripChars l = l := by
  rw [stripChars_eq_rdropWhile]
  have h1 : l.dropWhile Char.isWhitespace = l := by
    rw [List.dropWhile_eq_self_iff]
    intro hl
    simp [h _ (List.getElem_mem hl)]
  rw [h1, List.rdropWhile_eq_self_iff]
  intro hl
  simp [h _ (List.getLast_mem hl)]

theorem stripChars_ne_nil (l : Str) (c : Char) (hc : c ∈ l)
    (hw : c.isWhitespace = false) : stripChars l ≠ [] := by
  rw [stripChars_eq_rdropWhile]
  intro hnil
  rw [List.rdropWhile_eq_nil_iff] at hnil
  have hcd : c ∈ l.dropWhile Char.isWhitespace := by
    have hsplit := List.takeWhile_append_dropWhile (p := Char.isWhitespace) (l := l)
    rcases (List.mem_append.mp (hsplit ▸ hc)) with h1 | h1
    · exact absurd (List.mem_takeWhile_imp h1) (by simp [hw])
    · exact h1
  simp [hnil c hcd] at hw

theorem stripChars_idem (l : Str) : stripChars (stripChars l) = stripChars l := by
  rw [stripChars_eq_rdropWhile, stripChars_eq_rdropWhile]
  have h1 : ((l.dropWhile Char.isWhitespace).rdropWhile Char.isWhitespace).dropWhile
      Char.isWhitespace = (l.dropWhile Char.isWhitespace).rdropWhile Char.isWhitespace := by
    rw [List.dropWhile_eq_self_iff]
    intro hl
    have hpre := List.rdropWhile_prefix (p := Char.isWhitespace)
      (l := l.dropWhile Char.isWhitespace)
    have hlen : 0 < (l.dropWhile Char.isWhitespace).length :=
      Nat.lt_of_lt_of_le hl hpre.length_le
    have hget := List.IsPrefix.getElem hpre (by simpa using hl)
    have hnot := List.dropWhile_get_zero_not Char.isWhitespace l hlen
    simp only [List.get_eq_getElem] at hnot ⊢
    rw [hget]
    exact hnot
  rw [h1, List.rdropWhile_idempotent]

/-! ## Lemmas: `searchDown` -/

theorem searchDown_some (pred : Nat → Bool) (lo : Nat) :
    ∀ i j, searchDown pred lo i = some j → lo < j ∧ j ≤ i ∧ pred j = true := by
  intro i
  induction i with
  | zero => intro j h; simp [searchDown] at h
  | succ i ih =>
    intro j h
    rw [searchDown] at h
    by_cases h1 : i + 1 ≤ lo
    · simp [h1] at h
    · simp only [h1, if_false] at h
      by_cases h2 : pred (i+1)
      · simp [h2] at h
        exact ⟨by omega, by omega, h ▸ h2⟩
      · simp [h2] at h
        obtain ⟨a, b, c⟩ := ih j h
        exact ⟨a, by omega, c⟩

theorem searchDown_none (pred : Nat → Bool) (lo : Nat) :
    ∀ i, (∀ j, lo < j → j ≤ i → pred j = false) → searchDown pred lo i = none := by
  intro i
  induction i with
  | zero => intro _; simp [searchDown]
  | succ i ih =>
    intro h
    rw [searchDown]
    by_cases h1 : i + 1 ≤ lo
    · simp [h1]
    · simp only [h1, if_false]
      rw [h (i+1) (by omega) (le_refl _)]
      simp only [Bool.false_eq_true, if_false]
      exact ih (fun j hj1 hj2 => h j hj1 (by omega))


/-! ## Lemmas: `findBreakPoint` and `endPos` -/

theorem lt_afterBreak (start e off lo hi : Nat) (pred : Nat → Bool)
    (he : start < e) (hlo : start ≤ lo) :
    start < afterBreak e off (searchDown pred lo hi) := by
  rcases hs : searchDown pred lo hi with _ | i
  · simpa [afterBreak] using he
  · have := (searchDown_some _ _ _ _ hs).1
    simp only [afterBreak]
    omega

theorem lt_tryNext (start cur e newv : Nat) (h1 : start < cur) (h2 : start < newv) :
    start < tryNext cur e newv := by
  unfold tryNext
  split <;> assumption

theorem lt_findBreakPoint (content : Str) (start e : Nat) (h : start < e) :
    start < findBreakPoint content start e := by
  unfold findBreakPoint
  apply lt_tryNext
  · apply lt_tryNext
    · apply lt_tryNext
      · exact lt_afterBreak _ _ _ _ _ _ h (Nat.le_max_left _ _)
      · exact lt_afterBreak _ _ _ _ _ _ h (Nat.le_max_left _ _)
    · exact lt_afterBreak _ _ _ _ _ _ h (Nat.le_max_left _ _)
  · exact lt_afterBreak _ _ _ _ _ _ h (Nat.le_max_left _ _)

theorem lt_endPos (content : Str) (avail start : Nat) (h : 0 < avail) :
    start < endPos content avail start := by
  unfold endPos
  by_cases hc : start + avail < content.length
  · simp only [hc, if_pos]
    exact lt_findBreakPoint content start (start + avail) (by omega)
  · simp only [hc, if_false]
    omega

/-- On whitespace-free content every boundary search misses, so the break
point stays at `end`. -/
theorem findBreakPoint_noWs (content : Str) (start e : Nat)
    (hw : ∀ c ∈ content, c.isWhitespace = false) (he : e < content.length) :
    findBreakPoint content start e = e := by
  have hws : ∀ j, j < content.length → (content.getD j 'a').isWhitespace = false := by
    intro j hj
    rw [List.getD_eq_getElem _ _ hj]
    exact hw _ (List.getElem_mem hj)
  have hnl : ∀ j, j < content.length → (content.getD j 'a' == '\n') = false := by
    intro j hj
    have := hws j hj
    rw [List.getD_eq_getElem _ _ hj] at this ⊢
    by_cases hc : content[j] = '\n'
    · rw [hc] at this; simp at this
    · simp [hc]
  have hsent : searchDown (sentPred content) (max start (e - 200)) (e - 1) = none := by
    apply searchDown_none
    intro j _ hj2
    have hj : j + 1 < content.length := by omega
    simp only [sentPred]
    rw [hws (j+1) hj]
    simp only [Bool.or_false, Bool.and_eq_false_imp]
    intro _
    simp only [decide_eq_false_iff_not]
    omega
  have hpara : searchDown (paraPred content) (max start (e - 200)) (e - 1) = none := by
    apply searchDown_none
    intro j _ hj2
    simp only [paraPred]
    rw [hnl j (by omega)]
    simp
  have hline : searchDown (linePred content) (max start (e - 100)) (e - 1) = none := by
    apply searchDown_none
    intro j _ hj2
    simp only [linePred]
    exact hnl j (by omega)
  have hword : searchDown (wordPred content) (max start (e - 50)) (e - 1) = none := by
    apply searchDown_none
    intro j _ hj2
    simp only [wordPred]
    exact hws j (by omega)
  unfold findBreakPoint
  rw [hsent, hpara, hline, hword]
  simp [afterBreak, tryNext]

/-- On whitespace-free content `end` is always the tentative cut. -/
theorem endPos_noWs (content : Str) (avail start : Nat)
    (hw : ∀ c ∈ content, c.isWhitespace = false) :
    endPos content avail start = start + avail := by
  unfold endPos
  by_cases hc : start + avail < content.length
  · simp only [hc, if_pos]
    exact findBreakPoint_noWs content start (start + avail) hw hc
  · simp [hc]

/-! ## Lemmas: `splitLoop` -/

theorem splitLoop_of_ge (content : Str) (avail ov start : Nat)
    (h : ¬ start < content.length) : splitLoop content avail ov start = [] := by
  rw [splitLoop]
  simp [h]

theorem splitLoop_of_lt (content : Str) (avail ov start : Nat)
    (h : start < content.length) :
    splitLoop content avail ov start =
      (if stripChars ((content.drop start).take (endPos content avail start - start)) = []
       then (if endPos content avail start < content.length then
              splitLoop content avail ov (max (start+1) (endPos content avail start - ov))
             else [])
       else stripChars ((content.drop start).take (endPos content avail start - start)) ::
            (if endPos content avail start < content.length then
              splitLoop content avail ov (max (start+1) (endPos content avail start - ov))
             else [])) := by
  rw [splitLoop]
  simp [h]

/-- C7 core: `content.length - start` loop iterations always suffice. -/
theorem splitLoopFuel_adequate (content : Str) (avail ov : Nat) :
    ∀ fuel start, content.length - start ≤ fuel →
      splitLoopFuel content avail ov fuel start = some (splitLoop content avail ov start) := by
  intro fuel
  induction fuel with
  | zero =>
    intro start h
    have hge : ¬ start < content.length := by omega
    rw [splitLoop_of_ge content avail ov start hge, splitLoopFuel]
    simp [hge]
  | succ fuel ih =>
    intro start h
    by_cases hlt : start < content.length
    · rw [splitLoop_of_lt content avail ov start hlt, splitLoopFuel]
      simp only [hlt, if_pos]
      by_cases he : endPos content avail start < content.length
      · rw [if_pos he, if_pos he,
          ih (max (start+1) (endPos content avail start - ov)) (by
            have := Nat.le_max_left (start+1) (endPos content avail start - ov)
            omega)]
      · rw [if_neg he, if_neg he]
    · rw [splitLoop_of_ge content avail ov start hlt, splitLoopFuel]
      simp [hlt]

/-- Every segment the loop emits is already stripped and non-empty. -/
theorem splitLoop_mem_stripped (content : Str) (avail ov : Nat) :
    ∀ fuel start, content.length - start ≤ fuel →
      ∀ s ∈ splitLoop content avail ov start, stripChars s = s ∧ s ≠ [] := by
  intro fuel
  induction fuel with
  | zero =>
    intro start h s hs
    rw [splitLoop_of_ge content avail ov start (by omega)] at hs
    simp at hs
  | succ fuel ih =>
    intro start h s hs
    by_cases hlt : start < content.length
    · rw [splitLoop_of_lt content avail ov start hlt] at hs
      have hrest : ∀ s ∈ (if endPos content avail start < content.length then
          splitLoop content avail ov (max (start+1) (endPos content avail start - ov))
          else []), stripChars s = s ∧ s ≠ [] := by
        intro s2 hs2
        by_cases he : endPos content avail start < content.length
        · rw [if_pos he] at hs2
          exact ih (max (start+1) (endPos content avail start - ov)) (by
            have := Nat.le_max_left (start+1) (endPos content avail start - ov)
            omega) s2 hs2
        · rw [if_neg he] at hs2
          simp at hs2
      by_cases hc : stripChars ((content.drop start).take
          (endPos content avail start - start)) = []
      · rw [if_pos hc] at hs
        exact hrest s hs
      · rw [if_neg hc] at hs
        rcases List.mem_cons.mp hs with hrfl | hmem
        · subst hrfl
          exact ⟨stripChars_idem _, hc⟩
        · exact hrest s hmem
    · rw [splitLoop_of_ge content avail ov start hlt] at hs
      simp at hs

/-- The slice `content[start:e]` contains every content character whose index
lies in `[start, e)`. -/
theorem mem_slice (content : Str) (start e p : Nat) (h1 : start ≤ p) (h2 : p < e)
    (h3 : p < content.length) :
    content.get ⟨p, h3⟩ ∈ (content.drop start).take (e - start) := by
  have hlen : p - start < ((content.drop start).take (e - start)).length := by
    simp [List.length_take, List.length_drop]
    omega
  have hget : ((content.drop start).take (e - start)).get ⟨p - start, hlen⟩ =
      content.get ⟨p, h3⟩ := by
    show ((content.drop start).take (e - start))[p - start] = content[p]
    rw [List.getElem_take ..]
    rw [List.getElem_drop ..]
    congr 1
    omega
  exact hget ▸ List.get_mem _ _ _

/-- If some character at index ≥ `start` is not whitespace, the loop emits at
least one segment. -/
theorem splitLoop_ne_nil (content : Str) (avail ov : Nat) (ha : 0 < avail) :
    ∀ fuel start, content.length - start ≤ fuel → start < content.length →
      ∀ p (hp : p < content.length), start ≤ p →
        (content.get ⟨p, hp⟩).isWhitespace = false →
        splitLoop content avail ov start ≠ [] := by
  intro fuel
  induction fuel with
  | zero => intro start h hlt; omega
  | succ fuel ih =>
    intro start h hlt p hp hsp hpw
    have hse : start < endPos content avail start := lt_endPos content avail start ha
    rw [splitLoop_of_lt content avail ov start hlt]
    by_cases hpe : p < endPos content avail start
    · have hmem := mem_slice content start (endPos content avail start) p hsp hpe hp
      have hch := stripChars_ne_nil _ _ hmem hpw
      rw [if_neg hch]
      exact List.cons_ne_nil _ _
    · have he : endPos content avail start < content.length := by omega
      rw [if_pos he]
      have hrest : splitLoop content avail ov
          (max (start+1) (endPos content avail start - ov)) ≠ [] := by
        apply ih (max (start+1) (endPos content avail start - ov))
          (by have := Nat.le_max_left (start+1) (endPos content avail start - ov); omega)
          (Nat.max_lt.mpr ⟨by omega, by omega⟩) p hp
          (Nat.max_le.mpr ⟨by omega, by omega⟩) hpw
      split
      · exact hrest
      · exact List.cons_ne_nil _ _

theorem reconstruct_cons (ov : Nat) (s : Str) (t : List Str) (ht : t ≠ []) :
    reconstruct ov (s :: t) = s.take (s.length - ov) ++ reconstruct ov t := by
  cases t with
  | nil => exact absurd rfl ht
  | cons r t2 => rfl

theorem splitLoop_reconstruct (content : Str) (avail ov : Nat)
    (hw : ∀ c ∈ content, c.isWhitespace = false) (hov : ov < avail) :
    ∀ fuel start, content.length - start ≤ fuel → start < content.length →
      reconstruct ov (splitLoop content avail ov start) = content.drop start := by
  intro fuel
  induction fuel with
  | zero => intro start h hlt; omega
  | succ fuel ih =>
    intro start h hlt
    have ha : 0 < avail := by omega
    have he0 : endPos content avail start = start + avail := endPos_noWs content avail start hw
    have hslice : stripChars ((content.drop start).take (endPos content avail start - start)) =
        (content.drop start).take (endPos content avail start - start) := by
      apply stripChars_eq_self
      intro c hc
      exact hw c (List.drop_subset _ _ (List.take_subset _ _ hc))
    have hslice_ne : (content.drop start).take (endPos content avail start - start) ≠ [] := by
      rw [he0]
      intro hnil
      have hlen := congrArg List.length hnil
      simp [List.length_take, List.length_drop] at hlen
      omega
    rw [splitLoop_of_lt content avail ov start hlt, hslice, if_neg hslice_ne]
    by_cases hel : start + avail < content.length
    · rw [he0, if_pos hel]
      have hmax : max (start+1) (start + avail - ov) = start + (avail - ov) := by omega
      rw [hmax]
      have hne : splitLoop content avail ov (start + (avail - ov)) ≠ [] := by
        have hplt : start + (avail - ov) < content.length := by omega
        exact splitLoop_ne_nil content avail ov ha (content.length - (start + (avail - ov)))
          (start + (avail - ov)) (le_refl _) hplt (start + (avail - ov)) hplt (le_refl _)
          (hw _ (List.getElem_mem hplt))
      rw [reconstruct_cons ov _ _ hne]
      rw [ih (start + (avail - ov)) (by omega) (by omega)]
      have hlen : ((content.drop start).take (start + avail - start)).length = avail := by
        simp [List.length_take, List.length_drop]
        omega
      rw [hlen]
      have htt : ((content.drop start).take (start + avail - start)).take (avail - ov) =
          (content.drop start).take (avail - ov) := by
        have : start + avail - start = avail := by omega
        rw [this, List.take_take, Nat.min_eq_left (by omega)]
      rw [htt]
      have hdd : content.drop (start + (avail - ov)) = (content.drop start).drop (avail - ov) := by
        rw [List.drop_drop]
      rw [hdd, List.take_append_drop]
    · rw [he0, if_neg hel]
      show (content.drop start).take (start + avail - start) = content.drop start
      have : start + avail - start = avail := by omega
      rw [this]
      exact List.take_of_length_le (by simp [List.length_drop]; omega)

/-! ## The evaluation mirrors compute the real functions -/

theorem split_eval_eq (overlap : Nat) (content : Str) (availableChars : Nat) :
    split_content_with_overlap overlap content availableChars =
      splitEval overlap content availableChars := by
  unfold split_content_with_overlap splitEval
  by_cases h : content.length ≤ availableChars
  · simp [h]
  · rw [if_neg h, if_neg h,
      splitLoopFuel_adequate content availableChars overlap content.length 0 (by omega)]
    rfl

theorem create_chunks_eval_eq (chunkSize overlap maxBg : Nat) (entry : Entry)
    (allEntries : List Entry) (sourceFilename : Str) (counter : Nat) (cache : Cache) :
    create_chunks_from_entry chunkSize overlap maxBg entry allEntries sourceFilename
        counter cache =
      create_chunks_eval chunkSize overlap maxBg entry allEntries sourceFilename
        counter cache := by
  simp only [create_chunks_from_entry, create_chunks_eval, split_eval_eq]

theorem processEntries_eval_eq (chunkSize overlap maxBg : Nat) (allEntries : List Entry)
    (sourceFilename : Str) :
    ∀ (entries : List Entry) (counter : Nat) (cache : Cache),
      processEntries chunkSize overlap maxBg allEntries sourceFilename entries counter cache =
      processEntriesEval chunkSize overlap maxBg allEntries sourceFilename entries
        counter cache := by
  intro entries
  induction entries with
  | nil => intro counter cache; rfl
  | cons e rest ih =>
    intro counter cache
    simp only [processEntries, processEntriesEval, create_chunks_eval_eq, ih]

theorem processDocument_eval_eq (chunkSize overlap maxBg : Nat) (sourceFilename : Str)
    (entries : List Entry) (counter : Nat) :
    processDocument chunkSize overlap maxBg sourceFilename entries counter =
      processDocumentEval chunkSize overlap maxBg sourceFilename entries counter := by
  unfold processDocument processDocumentEval
  rw [processEntries_eval_eq]

theorem processRun_eval_eq (chunkSize overlap maxBg : Nat) :
    ∀ (docs : List (Str × List Entry)) (counter : Nat),
      processRun chunkSize overlap maxBg docs counter =
        processRunEval chunkSize overlap maxBg docs counter := by
  intro docs
  induction docs with
  | nil => intro counter; rfl
  | cons d rest ih =>
    intro counter
    simp only [processRun, processRunEval, processDocument_eval_eq, ih]

/-! ## Claim C4 -/

/-- C4, as stated, is false: for content that fits in `availableChars` the
splitter returns the input *untrimmed* (line 122 returns `[content]`, not
`[content.strip()]`).  Concrete refutation: `" a"` with `availableChars = 5`
comes back as `[" a"]`, not `["a"]`. -/
theorem C4_counterexample :
    ([' ', 'a'] : Str).length ≤ 5 ∧
    split_content_with_overlap 200 [' ', 'a'] 5 ≠ [stripChars [' ', 'a']] := by
  constructor
  · decide
  · rw [split_eval_eq]
    decide

/-- C4 (amended): for every content string whose length is at most
`availableChars`, `split_content_with_overlap` returns exactly one segment
equal to the *unmodified* input content (no whitespace trimming on this
path). -/
theorem C4_noop_split_unchanged (overlap : Nat) (content : Str)
    (availableChars : Nat) (h : content.length ≤ availableChars) :
    split_content_with_overlap overlap content availableChars = [content] := by
  rw [split_content_with_overlap, if_pos h]

theorem C4_witness :
    (['h', 'i'] : Str).length ≤ 5 ∧
    split_content_with_overlap 3 ['h', 'i'] 5 = [['h', 'i']] :=
  ⟨by decide, C4_noop_split_unchanged 3 ['h', 'i'] 5 (by decide)⟩

/-! ## Claim C5 -/

/-- C5, as stated, is false: for whitespace-only content longer than
`availableChars` every window strips to the empty string and is dropped, so
the returned sequence is *empty* — not the promised non-empty sequence.
Concrete refutation: three spaces with `availableChars = 1` (positive). -/
theorem C5_counterexample :
    0 < 1 ∧ split_content_with_overlap 0 [' ', ' ', ' '] 1 = [] := by
  refine ⟨by decide, ?_⟩
  rw [split_eval_eq]
  decide

/-- C5 (amended): for every content string containing at least one
non-whitespace character and every positive `availableChars`, the returned
sequence is non-empty and no returned segment is empty after trimming
(zero-length or whitespace-only windows are silently dropped).  For
whitespace-only content the splitter can return an empty list (long input) or
a single whitespace segment (short input). -/
theorem C5_segments_nonempty (overlap availableChars : Nat) (content : Str)
    (h1 : 0 < availableChars) (h2 : ∃ c ∈ content, c.isWhitespace = false) :
    split_content_with_overlap overlap content availableChars ≠ [] ∧
    ∀ s ∈ split_content_with_overlap overlap content availableChars,
      stripChars s ≠ [] := by
  obtain ⟨c, hc, hw⟩ := h2
  by_cases hle : content.length ≤ availableChars
  · rw [split_content_with_overlap, if_pos hle]
    refine ⟨List.cons_ne_nil _ _, ?_⟩
    intro s hs
    rcases List.mem_singleton.mp hs with rfl
    exact stripChars_ne_nil _ _ hc hw
  · rw [split_content_with_overlap, if_neg hle]
    obtain ⟨i, hi, hEq⟩ := List.mem_iff_getElem.mp hc
    constructor
    · exact splitLoop_ne_nil content availableChars overlap h1 content.length 0
        (by omega) (by omega) i hi (by omega)
        (by show (content[i]).isWhitespace = false; rw [hEq]; exact hw)
    · intro s hs
      have := splitLoop_mem_stripped content availableChars overlap content.length 0
        (by omega) s hs
      rw [this.1]
      exact this.2

theorem C5_witness :
    (0 < 1 ∧ ∃ c ∈ (['a', 'b'] : Str), c.isWhitespace = false) ∧
    (split_content_with_overlap 0 ['a', 'b'] 1 ≠ [] ∧
     ∀ s ∈ split_content_with_overlap 0 ['a', 'b'] 1, stripChars s ≠ []) :=
  ⟨⟨by decide, 'a', by decide, by decide⟩,
   C5_segments_nonempty 0 1 ['a', 'b'] (by decide) ⟨'a', by decide, by decide⟩⟩

/-! ## Claim C6 -/

/-- C6, as stated, is false: when `overlapSize ≥ availableChars` the loop
advances by single characters, so consecutive windows overlap by less than
`overlapSize`; removing a full `overlapSize` from each non-final segment
over-deletes.  Concrete refutation: 101 copies of `'a'` (no whitespace
anywhere, so the trimming proviso is vacuous) with `availableChars = 100`,
`overlapSize = 200`: the recipe rebuilds only 100 characters. -/
theorem C6_counterexample :
    100 < (List.replicate 101 'a' : Str).length ∧
    (∀ c ∈ (List.replicate 101 'a' : Str), c.isWhitespace = false) ∧
    reconstruct 200 (split_content_with_overlap 200 (List.replicate 101 'a') 100) ≠
      List.replicate 101 'a' := by
  refine ⟨by decide, by decide, ?_⟩
  rw [split_eval_eq]
  decide

/-- C6 (amended): for whitespace-free content longer than `availableChars`
and `overlapSize < availableChars`, concatenating the returned segments after
removing the trailing `overlapSize` characters from each non-final segment
reconstructs the original content exactly. -/
theorem C6_overlap_coverage (overlap availableChars : Nat) (content : Str)
    (hw : ∀ c ∈ content, c.isWhitespace = false)
    (h1 : availableChars < content.length) (h2 : overlap < availableChars) :
    reconstruct overlap (split_content_with_overlap overlap content availableChars) =
      content := by
  rw [split_content_with_overlap, if_neg (by omega)]
  have := splitLoop_reconstruct content availableChars overlap hw h2
    content.length 0 (by omega) (by omega)
  simpa using this

theorem C6_witness :
    ((∀ c ∈ (List.replicate 5 'a' : Str), c.isWhitespace = false) ∧
      3 < (List.replicate 5 'a' : Str).length ∧ 1 < 3) ∧
    reconstruct 1 (split_content_with_overlap 1 (List.replicate 5 'a') 3) =
      List.replicate 5 'a' :=
  ⟨⟨by decide, by decide, by decide⟩,
   C6_overlap_coverage 1 3 (List.replicate 5 'a') (by decide) (by decide) (by decide)⟩

/-! ## Claim C7 -/

/-- C7: the splitter terminates for every content, positive `availableChars`
and any `overlapSize`: since each iteration advances `start` to
`max(start+1, end-overlap) > start`, a budget of `length(content)` loop
iterations always completes (the fuel-indexed loop body returns the
well-founded loop's value instead of running out), and on the long path
`split_content_with_overlap` is exactly that loop started at 0. -/
theorem C7_splitter_terminates (content : Str) (availableChars overlap : Nat)
    (h : 0 < availableChars) :
    splitLoopFuel content availableChars overlap content.length 0 =
      some (splitLoop content availableChars overlap 0) ∧
    (availableChars < content.length →
      split_content_with_overlap overlap content availableChars =
        splitLoop content availableChars overlap 0) := by
  refine ⟨splitLoopFuel_adequate content availableChars overlap content.length 0
    (by omega), ?_⟩
  intro hlt
  rw [split_content_with_overlap, if_neg (by omega)]

theorem C7_witness :
    0 < 1 ∧
    (splitLoopFuel ['a', 'b', 'c'] 1 0 (['a', 'b', 'c'] : Str).length 0 =
      some (splitLoop ['a', 'b', 'c'] 1 0 0) ∧
     (1 < (['a', 'b', 'c'] : Str).length →
      split_content_with_overlap 0 ['a', 'b', 'c'] 1 =
        splitLoop ['a', 'b', 'c'] 1 0 0)) :=
  ⟨by decide, C7_splitter_terminates ['a', 'b', 'c'] 1 0 (by decide)⟩

/-! ## Claim C8 -/

/-- C8: the wrapped background never exceeds `maxBackgroundSize` plus the
fixed overhead of the two labels and the truncation marker (13 + 14 + 12
characters); and whenever the joined ancestor text is longer than
`maxBackgroundSize`, the result keeps a *tail* of the joined text (truncation
from the front), prepends the fixed marker, and reports `wasTruncated =
true`. -/
theorem C8_background_bound (maxBg : Nat) (entry : Entry) (allEntries : List Entry)
    (cache : Cache) :
    (build_hierarchical_background maxBg entry allEntries cache).1.1.length ≤
      maxBg + (bgOpen.length + truncMarker.length + bgClose.length) ∧
    (maxBg < (List.intercalate nl2
        (collectBackground allEntries entry.hierarchy cache).1).length →
      (build_hierarchical_background maxBg entry allEntries cache).1.2 = true ∧
      (build_hierarchical_background maxBg entry allEntries cache).1.1 =
        bgOpen ++ truncMarker ++
          (List.intercalate nl2
            (collectBackground allEntries entry.hierarchy cache).1).drop
            ((List.intercalate nl2
              (collectBackground allEntries entry.hierarchy cache).1).length -
              maxBg + truncMarker.length) ++ bgClose) := by
  have hopen : bgOpen.length = 13 := by decide
  have hclose : bgClose.length = 14 := by decide
  have hmark : truncMarker.length = 12 := by decide
  simp only [build_hierarchical_background]
  by_cases hraw : List.intercalate nl2
      (collectBackground allEntries entry.hierarchy cache).1 = []
  · rw [if_pos hraw]
    constructor
    · simp
    · intro hlt
      rw [hraw] at hlt
      simp at hlt
  · rw [if_neg hraw]
    by_cases htr : maxBg < (List.intercalate nl2
        (collectBackground allEntries entry.hierarchy cache).1).length
    · rw [if_pos htr]
      constructor
      · simp only [List.length_append, List.length_drop, hopen, hclose, hmark]
        omega
      · intro _
        refine ⟨rfl, ?_⟩
        simp [hmark, List.append_assoc]
    · rw [if_neg htr]
      constructor
      · simp only [List.length_append, hopen, hclose, hmark]
        omega
      · intro hlt
        exact absurd hlt htr

theorem C8_witness :
    (5 < (List.intercalate nl2 (collectBackground
        [⟨"0123456789".toList, some ['A'], [], none⟩] [['A']] []).1).length) ∧
    ((build_hierarchical_background 5 ⟨['z'], some ['E'], [['A']], none⟩
        [⟨"0123456789".toList, some ['A'], [], none⟩] []).1.2 = true ∧
     (build_hierarchical_background 5 ⟨['z'], some ['E'], [['A']], none⟩
        [⟨"0123456789".toList, some ['A'], [], none⟩] []).1.1 =
       bgOpen ++ truncMarker ++
         (List.intercalate nl2 (collectBackground
           [⟨"0123456789".toList, some ['A'], [], none⟩] [['A']] []).1).drop
           ((List.intercalate nl2 (collectBackground
             [⟨"0123456789".toList, some ['A'], [], none⟩] [['A']] []).1).length -
             5 + truncMarker.length) ++ bgClose) :=
  ⟨by decide,
   (C8_background_bound 5 ⟨['z'], some ['E'], [['A']], none⟩
     [⟨"0123456789".toList, some ['A'], [], none⟩] []).2 (by decide)⟩

/-! ## Claim C9 -/

/-- C9, as stated, is false in one corner: an ancestor that *does* resolve but
whose content strips to the empty string contributes an empty part, the join
of the parts can then still be empty (`''.join` of one empty part), and line
94 returns `("", False)` with no labels even though an ancestor resolved.
Concrete refutation: hierarchy `["A"]` where entry `A` has whitespace-only
content — one part is collected, yet the result is `""`, not a
label-wrapped string. -/
theorem C9_counterexample :
    (collectBackground [⟨[' ', ' '], some ['A'], [], none⟩] [['A']] []).1 ≠ [] ∧
    (build_hierarchical_background 40 ⟨['z'], some ['E'], [['A']], none⟩
        [⟨[' ', ' '], some ['A'], [], none⟩] []).1.1 = [] ∧
    ¬ ∃ mid, (build_hierarchical_background 40 ⟨['z'], some ['E'], [['A']], none⟩
        [⟨[' ', ' '], some ['A'], [], none⟩] []).1.1 = bgOpen ++ mid ++ bgClose := by
  refine ⟨by decide, by decide, ?_⟩
  rintro ⟨mid, hmid⟩
  rw [show (build_hierarchical_background 40 ⟨['z'], some ['E'], [['A']], none⟩
      [⟨[' ', ' '], some ['A'], [], none⟩] []).1.1 = [] from by decide] at hmid
  have hlen : ([] : Str).length = (bgOpen ++ mid ++ bgClose).length := by rw [hmid]
  simp only [List.length_append, List.length_nil] at hlen
  rw [show bgOpen.length = 13 from by decide,
    show bgClose.length = 14 from by decide] at hlen
  omega

/-- C9 (amended): the function `build_hierarchical_background` is total — an ancestor
title that is neither cached nor matches any entry is silently skipped
(the collection step is a no-op for it); when the joined ancestor text is
empty the result is exactly `("", false)` with no labels; and whenever the
joined ancestor text is non-empty (rather than: whenever some ancestor
resolves) the returned string is wrapped in the fixed open/close labels. -/
theorem C9_missing_ancestor_tolerated (maxBg : Nat) (entry : Entry)
    (allEntries : List Entry) (cache : Cache) (t : Str) (rest : List Str) :
    (lookupCache cache t = none → findEntryContent allEntries t = none →
      collectBackground allEntries (t :: rest) cache =
        collectBackground allEntries rest cache) ∧
    (List.intercalate nl2 (collectBackground allEntries entry.hierarchy cache).1 = [] →
      build_hierarchical_background maxBg entry allEntries cache =
        (([], false), (collectBackground allEntries entry.hierarchy cache).2)) ∧
    (List.intercalate nl2 (collectBackground allEntries entry.hierarchy cache).1 ≠ [] →
      ∃ mid, (build_hierarchical_background maxBg entry allEntries cache).1.1 =
        bgOpen ++ mid ++ bgClose) := by
  refine ⟨?_, ?_, ?_⟩
  · intro h1 h2
    simp only [collectBackground, h1, h2]
  · intro h
    simp only [build_hierarchical_background]
    rw [if_pos h]
  · intro h
    simp only [build_hierarchical_background]
    rw [if_neg h]
    exact ⟨_, rfl⟩

theorem C9_witness :
    (collectBackground [] [['X']] [] = collectBackground [] [] []) ∧
    (∃ mid, (build_hierarchical_background 40 ⟨['z'], some ['E'], [['A']], none⟩
        [⟨['b', 'o', 'd', 'y'], some ['A'], [], none⟩] []).1.1 =
      bgOpen ++ mid ++ bgClose) :=
  ⟨(C9_missing_ancestor_tolerated 40 ⟨['q'], none, [], none⟩ [] [] ['X'] []).1
      (by decide) (by decide),
   (C9_missing_ancestor_tolerated 40 ⟨['z'], some ['E'], [['A']], none⟩
      [⟨['b', 'o', 'd', 'y'], some ['A'], [], none⟩] [] ['X'] []).2.2 (by decide)⟩

/-! ## Claim C2 -/

set_option maxRecDepth 40000 in
/-- C2, as stated, is false: the second-stage shrink rebuilds the background
as labels (27 chars) + marker (12 chars) + `max_allowed_background - 28` inner
characters, so `chunkSize - len(background)` lands on `89`, not on
`minContentSize = 100` — the code under-counts the overhead by 11.  Concrete
refutation: `chunkSize = 200` with a 177-character wrapped background (room
for labels and marker: `new_size = 72 > 0`), after which
`200 - len(background) = 89 ≠ 100`. -/
theorem C2_counterexample :
    ((bgOpen ++ List.replicate 150 'a' ++ bgClose : Str) ≠ []) ∧
    (200 - (bgOpen ++ List.replicate 150 'a' ++ bgClose : Str).length < 100) ∧
    (0 < 200 - 100 - 28) ∧
    (200 - (computeBudget 200 (bgOpen ++ List.replicate 150 'a' ++ bgClose)).1.length
      ≠ 100) :=
  ⟨by decide, by decide, by decide, by decide⟩

/-- C2 (amended): the `availableChars` value that reaches the splitter is
always at least `minContentSize = 100` (clamped at line 236); and in the
generic shrink case — a wrapped, not-previously-truncated background with
enough inner text, `availableChars < 100` initially, and
`chunkSize - minContentSize - 28 > 0` — the re-truncated background satisfies
`chunkSize - len(background) = 89` (= `minContentSize - 11`, the marker and
label overhead being under-counted by 11), after which the clamp raises
`availableChars` to exactly 100. -/
theorem C2_budget_floor (chunkSize : Nat) (bg inner : Str) :
    100 ≤ (computeBudget chunkSize bg).2.2 ∧
    (bg = bgOpen ++ inner ++ bgClose →
     isInfixList truncMarker inner = false →
     chunkSize < bg.length + 100 →
     130 < chunkSize →
     chunkSize - 128 ≤ inner.length →
     (computeBudget chunkSize bg).1.length + 89 = chunkSize ∧
     (computeBudget chunkSize bg).2.2 = 100) := by
  constructor
  · simp only [computeBudget]
    by_cases h : chunkSize - bg.length < 100
    · rw [if_pos h]
      exact Nat.le_max_right _ _
    · rw [if_neg h]
      show 100 ≤ chunkSize - bg.length
      omega
  · intro hbg hinf h1 h2 h3
    subst hbg
    have hob : bgOpen.length = 13 := by decide
    have hcb : bgClose.length = 14 := by decide
    have htb : truncMarker.length = 12 := by decide
    have hlb : (bgOpen ++ inner ++ bgClose).length = 27 + inner.length := by
      simp only [List.length_append]
      omega
    have hpre : (bgOpen.isPrefixOf (bgOpen ++ inner ++ bgClose) &&
        bgClose.isSuffixOf (bgOpen ++ inner ++ bgClose)) = true := by
      rw [Bool.and_eq_true]
      constructor
      · rw [List.isPrefixOf_iff_prefix, List.append_assoc]
        exact List.prefix_append _ _
      · rw [List.isSuffixOf_iff_suffix]
        exact List.suffix_append _ _
    have hinner : ((bgOpen ++ inner ++ bgClose).drop 13).take
        ((bgOpen ++ inner ++ bgClose).length - 27) = inner := by
      rw [hlb]
      have h27 : 27 + inner.length - 27 = inner.length := by omega
      rw [h27, List.append_assoc, List.drop_left' hob]
      exact List.take_left' rfl
    simp only [computeBudget]
    rw [if_pos (show chunkSize - (bgOpen ++ inner ++ bgClose).length < 100 by omega)]
    rw [if_pos (show 0 < (bgOpen ++ inner ++ bgClose).length by omega)]
    rw [if_pos (show 0 < chunkSize - 100 by omega)]
    rw [if_pos hpre, hinner]
    rw [if_neg (by rw [hinf]; exact Bool.false_ne_true)]
    rw [if_pos (show 0 < chunkSize - 100 - 28 by omega)]
    have hbl : (bgOpen ++ truncMarker ++
        inner.drop (inner.length - (chunkSize - 100 - 28)) ++ bgClose).length =
        chunkSize - 89 := by
      simp only [List.length_append, List.length_drop]
      omega
    rw [hbl]
    constructor
    · omega
    · show max (chunkSize - (chunkSize - 89)) 100 = 100
      omega

set_option maxRecDepth 40000 in
theorem C2_witness :
    ((bgOpen ++ List.replicate 150 'a' ++ bgClose : Str) =
        bgOpen ++ List.replicate 150 'a' ++ bgClose ∧
      isInfixList truncMarker (List.replicate 150 'a') = false ∧
      200 < (bgOpen ++ List.replicate 150 'a' ++ bgClose : Str).length + 100 ∧
      130 < 200 ∧ 200 - 128 ≤ (List.replicate 150 'a' : Str).length) ∧
    (100 ≤ (computeBudget 200 (bgOpen ++ List.replicate 150 'a' ++ bgClose)).2.2 ∧
     (computeBudget 200 (bgOpen ++ List.replicate 150 'a' ++ bgClose)).1.length + 89 =
       200 ∧
     (computeBudget 200 (bgOpen ++ List.replicate 150 'a' ++ bgClose)).2.2 = 100) :=
  ⟨⟨rfl, by decide, by decide, by decide, by decide⟩,
   ⟨(C2_budget_floor 200 (bgOpen ++ List.replicate 150 'a' ++ bgClose)
       (List.replicate 150 'a')).1,
    (C2_budget_floor 200 (bgOpen ++ List.replicate 150 'a' ++ bgClose)
       (List.replicate 150 'a')).2 rfl (by decide) (by decide) (by decide) (by decide)⟩⟩

/-! ## Lemmas: `computeBudget` and `assembleChunks` -/

/-- Line 230 keeps the `background_length` variable equal to the actual
length of the (possibly re-truncated) background on every path. -/
theorem computeBudget_sound (chunkSize : Nat) (bg : Str) :
    (computeBudget chunkSize bg).2.1 = (computeBudget chunkSize bg).1.length := by
  simp only [computeBudget]
  by_cases h1 : chunkSize - bg.length < 100
  · rw [if_pos h1]
    by_cases h2 : 0 < bg.length
    · rw [if_pos h2]
      by_cases h3 : 0 < chunkSize - 100
      · rw [if_pos h3]
      · rw [if_neg h3]
        rfl
    · rw [if_neg h2]
  · rw [if_neg h1]

theorem assembleChunks_mem (sourceFilename title fullPath bg : Str) (bgLen : Nat) :
    ∀ (segs : List Str) (i counter : Nat),
      ∀ c ∈ (assembleChunks sourceFilename title fullPath bg bgLen segs i counter).1,
        ∃ seg ∈ segs,
          c.content = (if bg = [] then seg else bg ++ nl2 ++ seg) ∧
          c.chunk_size = c.content.length ∧
          c.background_size = bgLen ∧
          c.content_size = seg.length := by
  intro segs
  induction segs with
  | nil => intro i counter c hc; simp [assembleChunks] at hc
  | cons s rest ih =>
    intro i counter c hc
    simp only [assembleChunks] at hc
    rcases List.mem_cons.mp hc with rfl | hmem
    · exact ⟨s, List.mem_cons_self s rest, rfl, rfl, rfl, rfl⟩
    · obtain ⟨seg, hsm, h⟩ := ih (i+1) (counter+1) c hmem
      exact ⟨seg, List.mem_cons_of_mem s hsm, h⟩

theorem assembleChunks_counter (sourceFilename title fullPath bg : Str) (bgLen : Nat) :
    ∀ (segs : List Str) (i counter : Nat),
      (assembleChunks sourceFilename title fullPath bg bgLen segs i counter).2 =
        counter +
          (assembleChunks sourceFilename title fullPath bg bgLen segs i counter).1.length := by
  intro segs
  induction segs with
  | nil => intro i counter; simp [assembleChunks]
  | cons s rest ih =>
    intro i counter
    simp only [assembleChunks, List.length_cons]
    rw [ih (i+1) (counter+1)]
    omega

theorem assembleChunks_ids (sourceFilename title fullPath bg : Str) (bgLen : Nat) :
    ∀ (segs : List Str) (i counter : Nat) (j : Nat)
      (hj : j < (assembleChunks sourceFilename title fullPath bg bgLen segs i counter).1.length),
      ((assembleChunks sourceFilename title fullPath bg bgLen segs i counter).1.get
        ⟨j, hj⟩).chunk_id = chunkIdString (counter + j + 1) sourceFilename title (i + j) := by
  intro segs
  induction segs with
  | nil => intro i counter j hj; simp [assembleChunks] at hj
  | cons s rest ih =>
    intro i counter j hj
    cases j with
    | zero => rfl
    | succ j =>
      have hj2 : j < (assembleChunks sourceFilename title fullPath bg bgLen rest
          (i+1) (counter+1)).1.length := by
        simp only [assembleChunks, List.length_cons] at hj
        omega
      have := ih (i+1) (counter+1) j hj2
      simp only [assembleChunks, List.get_cons_succ]
      rw [this]
      congr 1 <;> omega

/-! ## Claim C10 -/

/-- C10: every chunk emitted by `create_chunks_from_entry` satisfies the
metadata consistency invariant: its `content` is background + `"\n\n"` +
segment (or just the segment when the background is empty), `chunk_size` is
the exact length of `content`, `background_size` the exact length of the
background, `content_size` the exact length of the segment; hence
`chunk_size = background_size + 2 + content_size` for a non-empty background
and `chunk_size = content_size` with `background_size = 0` otherwise. -/
theorem C10_metadata_consistency (chunkSize overlap maxBg : Nat) (entry : Entry)
    (allEntries : List Entry) (sourceFilename : Str) (counter : Nat) (cache : Cache) :
    ∀ c ∈ (create_chunks_from_entry chunkSize overlap maxBg entry allEntries
        sourceFilename counter cache).1,
      ∃ bg seg : Str,
        c.content = (if bg = [] then seg else bg ++ nl2 ++ seg) ∧
        c.chunk_size = c.content.length ∧
        c.background_size = bg.length ∧
        c.content_size = seg.length ∧
        (bg ≠ [] → c.chunk_size = c.background_size + 2 + c.content_size) ∧
        (bg = [] → c.chunk_size = c.content_size ∧ c.background_size = 0) := by
  intro c hc
  simp only [create_chunks_from_entry] at hc
  obtain ⟨seg, hsm, hcontent, hcs, hbs, hct⟩ :=
    assembleChunks_mem sourceFilename (entry.title.getD unknownTitle)
      (entry.full_path.getD (entry.title.getD unknownTitle))
      (computeBudget chunkSize
        (build_hierarchical_background maxBg entry allEntries cache).1.1).1
      (computeBudget chunkSize
        (build_hierarchical_background maxBg entry allEntries cache).1.1).2.1
      _ 0 counter c hc
  refine ⟨(computeBudget chunkSize
      (build_hierarchical_background maxBg entry allEntries cache).1.1).1, seg,
    hcontent, hcs, ?_, hct, ?_, ?_⟩
  · rw [hbs, computeBudget_sound]
  · intro hne
    rw [hcs, hcontent, if_neg hne, hbs, computeBudget_sound, hct]
    simp only [List.length_append]
    have : nl2.length = 2 := by decide
    omega
  · intro heq
    rw [hcs, hcontent, if_pos heq, hbs, computeBudget_sound, hct, heq]
    exact ⟨rfl, rfl⟩

theorem C10_witness :
    (⟨['h', 'i'], "chunk_000001_f_T_0".toList, "f.json".toList, ['T'], 2, 0, 2⟩ : Chunk) ∈
      (create_chunks_from_entry 5000 200 2000 ⟨['h', 'i'], some ['T'], [], none⟩
        [] "f.json".toList 0 []).1 ∧
    ∃ bg seg : Str,
      (⟨['h', 'i'], "chunk_000001_f_T_0".toList, "f.json".toList, ['T'], 2, 0, 2⟩ :
          Chunk).content =
        (if bg = [] then seg else bg ++ nl2 ++ seg) ∧
      (2 : Nat) = (['h', 'i'] : Str).length ∧
      (0 : Nat) = bg.length ∧
      (2 : Nat) = seg.length ∧
      (bg ≠ [] → (2 : Nat) = 0 + 2 + 2) ∧
      (bg = [] → (2 : Nat) = 2 ∧ (0 : Nat) = 0) := by
  have hlist : (create_chunks_from_entry 5000 200 2000 ⟨['h', 'i'], some ['T'], [], none⟩
        [] "f.json".toList 0 []).1 =
      [⟨['h', 'i'], "chunk_000001_f_T_0".toList, "f.json".toList, ['T'], 2, 0, 2⟩] := by
    rw [create_chunks_eval_eq]
    decide
  have hmem : (⟨['h', 'i'], "chunk_000001_f_T_0".toList, "f.json".toList, ['T'],
        2, 0, 2⟩ : Chunk) ∈
      (create_chunks_from_entry 5000 200 2000 ⟨['h', 'i'], some ['T'], [], none⟩
        [] "f.json".toList 0 []).1 := by
    rw [hlist]
    exact List.mem_singleton_self _
  exact ⟨hmem, C10_metadata_consistency 5000 200 2000 ⟨['h', 'i'], some ['T'], [], none⟩
    [] "f.json".toList 0 [] _ hmem⟩

/-! ## Claim C3 -/

/-- The clamp at line 236 gives the splitter a capacity of at least 100. -/
theorem computeBudget_floor (chunkSize : Nat) (bg : Str) :
    100 ≤ (computeBudget chunkSize bg).2.2 := by
  simp only [computeBudget]
  by_cases h : chunkSize - bg.length < 100
  · rw [if_pos h]
    exact Nat.le_max_right _ _
  · rw [if_neg h]
    show 100 ≤ chunkSize - bg.length
    omega

/-- Every segment produced by the splitter is non-empty provided the entry
content itself is non-empty. -/
theorem split_mem_ne_nil (overlap availableChars : Nat) (content : Str)
    (hc : content ≠ []) :
    ∀ s ∈ split_content_with_overlap overlap content availableChars, s ≠ [] := by
  intro s hs
  rw [split_content_with_overlap] at hs
  by_cases hle : content.length ≤ availableChars
  · rw [if_pos hle] at hs
    rcases List.mem_singleton.mp hs with rfl
    exact hc
  · rw [if_neg hle] at hs
    exact (splitLoop_mem_stripped content availableChars overlap content.length 0
      (by omega) s hs).2

set_option maxRecDepth 100000 in
/-- C3, as stated, is false: the splitter enforces no per-segment floor.  With
`chunkSize = 100` (no background, so `availableChars = 100`), default
`overlapSize = 200`, and a 150-character entry (≥ the floor), the first
window `content[0:100]` ends just after a space at index 99, strips to 99
characters, and is emitted with `content_size = 99 < 100`. -/
theorem C3_counterexample :
    100 ≤ (List.replicate 99 'a' ++ [' '] ++ List.replicate 50 'b' : Str).length ∧
    ((create_chunks_from_entry 100 200 40
        ⟨List.replicate 99 'a' ++ [' '] ++ List.replicate 50 'b', some ['T'], [], none⟩
        [] "f.json".toList 0 []).1.any
      (fun c => decide (c.content_size < 100))) = true := by
  refine ⟨by decide, ?_⟩
  rw [create_chunks_eval_eq]
  decide

/-- C3 (amended): the `minContentSize = 100` floor constrains the *capacity*
handed to the splitter — `availableChars` is always at least 100 — but not
each emitted segment's length; what holds per chunk is only that (for a
non-empty entry content) every emitted chunk has a non-empty content segment
(`content_size > 0`). -/
theorem C3_capacity_floor (chunkSize overlap maxBg : Nat) (entry : Entry)
    (allEntries : List Entry) (sourceFilename : Str) (counter : Nat) (cache : Cache) :
    100 ≤ (computeBudget chunkSize
      (build_hierarchical_background maxBg entry allEntries cache).1.1).2.2 ∧
    (entry.content ≠ [] →
      ∀ c ∈ (create_chunks_from_entry chunkSize overlap maxBg entry allEntries
          sourceFilename counter cache).1, 0 < c.content_size) := by
  constructor
  · exact computeBudget_floor _ _
  · intro hne c hc
    simp only [create_chunks_from_entry] at hc
    obtain ⟨seg, hsm, _, _, _, hct⟩ :=
      assembleChunks_mem sourceFilename (entry.title.getD unknownTitle)
        (entry.full_path.getD (entry.title.getD unknownTitle)) _ _ _ 0 counter c hc
    have hseg := split_mem_ne_nil overlap _ entry.content hne seg hsm
    rw [hct]
    exact List.length_pos.mpr hseg

theorem C3_witness :
    (['h', 'i'] : Str) ≠ [] ∧
    100 ≤ (computeBudget 5000
      (build_hierarchical_background 2000 ⟨['h', 'i'], some ['T'], [], none⟩ [] []).1.1).2.2 ∧
    ∀ c ∈ (create_chunks_from_entry 5000 200 2000 ⟨['h', 'i'], some ['T'], [], none⟩
        [] "f.json".toList 0 []).1, 0 < c.content_size :=
  ⟨by decide,
   (C3_capacity_floor 5000 200 2000 ⟨['h', 'i'], some ['T'], [], none⟩ []
     "f.json".toList 0 []).1,
   (C3_capacity_floor 5000 200 2000 ⟨['h', 'i'], some ['T'], [], none⟩ []
     "f.json".toList 0 []).2 (by decide)⟩

/-! ## Lemmas: decimal rendering and chunk-id injectivity -/

theorem digitChar_toNat (d : Nat) (hd : d < 10) : (Nat.digitChar d).toNat = 48 + d := by
  interval_cases d <;> decide

theorem digitChar_isDigit (d : Nat) (hd : d < 10) : (Nat.digitChar d).isDigit = true := by
  interval_cases d <;> decide

theorem decDigitsAux_lt10 : ∀ fuel n d, d ∈ decDigitsAux fuel n → d < 10 := by
  intro fuel
  induction fuel with
  | zero => intro n d hd; simp [decDigitsAux] at hd
  | succ fuel ih =>
    intro n d hd
    rw [decDigitsAux] at hd
    by_cases hn : n = 0
    · simp [hn] at hd
    · rw [if_neg hn] at hd
      rcases List.mem_cons.mp hd with rfl | hd2
      · exact Nat.mod_lt _ (by omega)
      · exact ih _ _ hd2

theorem decDigitsAux_ofDigits : ∀ fuel n, n ≤ fuel →
    Nat.ofDigits 10 (decDigitsAux fuel n) = n := by
  intro fuel
  induction fuel with
  | zero =>
    intro n hn
    have : n = 0 := by omega
    subst this
    rfl
  | succ fuel ih =>
    intro n hn
    rw [decDigitsAux]
    by_cases hn0 : n = 0
    · subst hn0; rfl
    · rw [if_neg hn0, Nat.ofDigits_cons,
        ih (n / 10) (by have := Nat.div_lt_self (by omega : 0 < n) (by omega : 1 < 10); omega)]
      omega

theorem natToDecimal_digits (n : Nat) : ∀ c ∈ natToDecimal n, c.isDigit = true := by
  intro c hc
  rw [natToDecimal] at hc
  by_cases hn : n = 0
  · rw [if_pos hn] at hc
    rcases List.mem_singleton.mp hc with rfl
    decide
  · rw [if_neg hn] at hc
    obtain ⟨d, hd, rfl⟩ := List.mem_map.mp (List.mem_reverse.mp hc)
    exact digitChar_isDigit d (decDigitsAux_lt10 n n d hd)

theorem parseDec_natToDecimal (n : Nat) : parseDec (natToDecimal n) = n := by
  by_cases hn : n = 0
  · subst hn; decide
  · rw [natToDecimal, if_neg hn, parseDec, List.map_reverse, List.reverse_reverse,
      List.map_map]
    have hmap : (decDigitsAux n n).map ((fun c => c.toNat - 48) ∘ Nat.digitChar) =
        decDigitsAux n n := by
      conv_rhs => rw [← List.map_id (decDigitsAux n n)]
      apply List.map_congr_left
      intro d hd
      have hlt := decDigitsAux_lt10 n n d hd
      simp only [Function.comp_apply, digitChar_toNat d hlt, List.map_id, id]
      omega
    rw [hmap]
    exact decDigitsAux_ofDigits n n (le_refl n)

theorem pad6_digits (n : Nat) : ∀ c ∈ pad6 n, c.isDigit = true := by
  intro c hc
  rw [pad6] at hc
  rcases List.mem_append.mp hc with hc1 | hc2
  · rcases List.eq_of_mem_replicate hc1 with rfl
    decide
  · exact natToDecimal_digits n c hc2

theorem ofDigits_replicate_zero (k : Nat) : Nat.ofDigits 10 (List.replicate k 0) = 0 := by
  induction k with
  | zero => rfl
  | succ k ih => simp [List.replicate_succ, Nat.ofDigits_cons, ih]

theorem parseDec_pad6 (n : Nat) : parseDec (pad6 n) = n := by
  rw [pad6, parseDec, List.map_append, List.map_replicate]
  have h0 : ('0'.toNat - 48) = 0 := by decide
  rw [h0, List.reverse_append, List.reverse_replicate, Nat.ofDigits_append,
    ofDigits_replicate_zero, Nat.mul_zero, Nat.add_zero]
  exact parseDec_natToDecimal n

theorem digit_sep_cancel : ∀ (a : Str), (∀ c ∈ a, c.isDigit = true) →
    ∀ (b : Str), (∀ c ∈ b, c.isDigit = true) → ∀ r1 r2 : Str,
    a ++ '_' :: r1 = b ++ '_' :: r2 → a = b := by
  intro a
  induction a with
  | nil =>
    intro _ b hb r1 r2 h
    cases b with
    | nil => rfl
    | cons y b2 =>
      simp only [List.nil_append, List.cons_append] at h
      injection h with h1 _
      have hy := hb y (List.mem_cons_self _ _)
      rw [← h1] at hy
      exact absurd hy (by decide)
  | cons x a2 ih =>
    intro ha b hb r1 r2 h
    cases b with
    | nil =>
      simp only [List.cons_append, List.nil_append] at h
      injection h with h1 _
      have hx := ha x (List.mem_cons_self _ _)
      rw [h1] at hx
      exact absurd hx (by decide)
    | cons y b2 =>
      simp only [List.cons_append] at h
      injection h with h1 h2
      rw [h1, ih (fun c hc => ha c (List.mem_cons_of_mem _ hc)) b2
        (fun c hc => hb c (List.mem_cons_of_mem _ hc)) r1 r2 h2]

/-- Two chunk ids can only coincide when they embed the same counter value:
the zero-padded counter is the digit field right after `chunk_`, and the `_`
separator that follows can never be a digit, so equal ids force equal digit
fields, which parse back to the counters. -/
theorem chunkIdString_counter_inj (c1 c2 : Nat) (f1 f2 t1 t2 : Str) (i1 i2 : Nat)
    (h : chunkIdString c1 f1 t1 i1 = chunkIdString c2 f2 t2 i2) : c1 = c2 := by
  rw [chunkIdString, chunkIdString] at h
  simp only [List.append_assoc] at h
  have h6 : chunkPrefix.length = 6 := by decide
  have h2 := congrArg (List.drop 6) h
  rw [List.drop_left' h6, List.drop_left' h6] at h2
  simp only [List.cons_append] at h2
  have h3 := digit_sep_cancel (pad6 c1) (pad6_digits c1) (pad6 c2) (pad6_digits c2)
    _ _ h2
  have h4 := congrArg parseDec h3
  rwa [parseDec_pad6, parseDec_pad6] at h4

/-! ## Lemmas: counter threading across the run -/

theorem idsFrom_append (k : Nat) (cs1 cs2 : List Chunk) (h1 : idsFrom k cs1)
    (h2 : idsFrom (k + cs1.length) cs2) : idsFrom k (cs1 ++ cs2) := by
  intro j hj
  have hj' : j < cs1.length + cs2.length := by simpa [List.length_append] using hj
  by_cases hj1 : j < cs1.length
  · obtain ⟨f, t, i, hid⟩ := h1 j hj1
    refine ⟨f, t, i, ?_⟩
    rw [List.get_eq_getElem, List.getElem_append_left hj1]
    rw [List.get_eq_getElem] at hid
    exact hid
  · obtain ⟨f, t, i, hid⟩ := h2 (j - cs1.length) (by omega)
    refine ⟨f, t, i, ?_⟩
    show ((cs1 ++ cs2)[j]).chunk_id = _
    rw [List.getElem_append_right (show cs1.length ≤ j by omega)]
    rw [List.get_eq_getElem] at hid
    have harith : k + cs1.length + (j - cs1.length) + 1 = k + j + 1 := by omega
    rw [harith] at hid
    exact hid

theorem create_chunks_counter_ids (chunkSize overlap maxBg : Nat) (entry : Entry)
    (allEntries : List Entry) (sourceFilename : Str) (counter : Nat) (cache : Cache) :
    (create_chunks_from_entry chunkSize overlap maxBg entry allEntries sourceFilename
        counter cache).2.1 =
      counter + (create_chunks_from_entry chunkSize overlap maxBg entry allEntries
        sourceFilename counter cache).1.length ∧
    idsFrom counter (create_chunks_from_entry chunkSize overlap maxBg entry allEntries
      sourceFilename counter cache).1 := by
  constructor
  · simp only [create_chunks_from_entry]
    exact assembleChunks_counter _ _ _ _ _ _ 0 counter
  · intro j hj
    simp only [create_chunks_from_entry] at hj ⊢
    exact ⟨sourceFilename, entry.title.getD unknownTitle, 0 + j,
      assembleChunks_ids _ _ _ _ _ _ 0 counter j hj⟩

theorem processEntries_counter_ids (chunkSize overlap maxBg : Nat)
    (allEntries : List Entry) (sourceFilename : Str) :
    ∀ (entries : List Entry) (counter : Nat) (cache : Cache),
      (processEntries chunkSize overlap maxBg allEntries sourceFilename entries
          counter cache).2 =
        counter + (processEntries chunkSize overlap maxBg allEntries sourceFilename
          entries counter cache).1.length ∧
      idsFrom counter (processEntries chunkSize overlap maxBg allEntries
        sourceFilename entries counter cache).1 := by
  intro entries
  induction entries with
  | nil =>
    intro counter cache
    refine ⟨by simp [processEntries], ?_⟩
    intro j hj
    simp [processEntries] at hj
  | cons e rest ih =>
    intro counter cache
    have hc := create_chunks_counter_ids chunkSize overlap maxBg e allEntries
      sourceFilename counter cache
    have hr := ih (create_chunks_from_entry chunkSize overlap maxBg e allEntries
        sourceFilename counter cache).2.1
      (create_chunks_from_entry chunkSize overlap maxBg e allEntries
        sourceFilename counter cache).2.2
    simp only [processEntries]
    constructor
    · rw [List.length_append, hr.1, hc.1]
      omega
    · apply idsFrom_append counter _ _ hc.2
      rw [← hc.1]
      exact hr.2

theorem processDocument_counter_ids (chunkSize overlap maxBg : Nat)
    (sourceFilename : Str) (entries : List Entry) (counter : Nat) :
    (processDocument chunkSize overlap maxBg sourceFilename entries counter).2 =
      counter + (processDocument chunkSize overlap maxBg sourceFilename entries
        counter).1.length ∧
    idsFrom counter
      (processDocument chunkSize overlap maxBg sourceFilename entries counter).1 :=
  processEntries_counter_ids chunkSize overlap maxBg entries sourceFilename
    entries counter []

theorem processRun_counter_ids (chunkSize overlap maxBg : Nat) :
    ∀ (docs : List (Str × List Entry)) (counter : Nat),
      (processRun chunkSize overlap maxBg docs counter).2 =
        counter + (processRun chunkSize overlap maxBg docs counter).1.length ∧
      idsFrom counter (processRun chunkSize overlap maxBg docs counter).1 := by
  intro docs
  induction docs with
  | nil =>
    intro counter
    refine ⟨by simp [processRun], ?_⟩
    intro j hj
    simp [processRun] at hj
  | cons d rest ih =>
    intro counter
    obtain ⟨fname, entries⟩ := d
    have hc := processDocument_counter_ids chunkSize overlap maxBg fname entries counter
    have hr := ih (processDocument chunkSize overlap maxBg fname entries counter).2
    simp only [processRun]
    constructor
    · rw [List.length_append, hr.1, hc.1]
      omega
    · apply idsFrom_append counter _ _ hc.2
      rw [← hc.1]
      exact hr.2

theorem idsFrom_nodup : ∀ (cs : List Chunk) (k : Nat), idsFrom k cs →
    (cs.map (fun c => c.chunk_id)).Nodup := by
  intro cs
  induction cs with
  | nil => intro k _; simp
  | cons c cs2 ih =>
    intro k h
    simp only [List.map_cons, List.nodup_cons]
    constructor
    · intro hmem
      obtain ⟨c2, hc2, hid⟩ := List.mem_map.mp hmem
      obtain ⟨⟨j, hj⟩, hcj⟩ := List.mem_iff_get.mp hc2
      obtain ⟨f0, t0, i0, h0⟩ := h 0 (by simp)
      obtain ⟨fj, tj, ij, hjid⟩ := h (j+1) (by simpa using Nat.succ_lt_succ hj)
      rw [List.get_cons_succ] at hjid
      have heq : chunkIdString (k + 0 + 1) f0 t0 i0 =
          chunkIdString (k + (j+1) + 1) fj tj ij := by
        rw [← h0, ← hjid]
        show c.chunk_id = _
        rw [← hid, ← hcj]
      have := chunkIdString_counter_inj _ _ _ _ _ _ _ _ heq
      omega
    · apply ih (k+1)
      intro j hj
      obtain ⟨f, t, i, hid⟩ := h (j+1) (by simpa using Nat.succ_lt_succ hj)
      rw [List.get_cons_succ] at hid
      have harith : k + (j+1) + 1 = k + 1 + j + 1 := by omega
      rw [harith] at hid
      exact ⟨f, t, i, hid⟩

/-! ## Claim C1 -/

/-- C1: over any run of one processor instance — any sequence of documents,
each with any sequence of entries, starting from a fresh counter — the final
counter equals the total number of emitted chunks (the counter is bumped
exactly once per chunk inside `generate_chunk_id` and survives document
boundaries, only the hierarchy cache being reset per file), and all emitted
`chunk_id` strings are pairwise distinct: the zero-padded counter field after
`chunk_` is delimited by a non-digit `_`, so distinct counters always yield
distinct ids, for every filename stem, title and segment index. -/
theorem C1_chunk_ids_unique (chunkSize overlap maxBg : Nat)
    (docs : List (Str × List Entry)) :
    (processRun chunkSize overlap maxBg docs 0).2 =
      (processRun chunkSize overlap maxBg docs 0).1.length ∧
    ((processRun chunkSize overlap maxBg docs 0).1.map (fun c => c.chunk_id)).Nodup := by
  have h := processRun_counter_ids chunkSize overlap maxBg docs 0
  exact ⟨by simpa using h.1, idsFrom_nodup _ 0 h.2⟩
